import Mathlib

/-!
Shallow embedding of the sysbox-fs core checked here:

* the path-resolution and permission-check engine of the process package
  (pathAccess, checkPerm, isSymlink in src/unnamed/part_000);
* the max-int sysctl handler (MaxIntBaseHandler.Write / pushFile in
  src/unnamed/part_004);
* the common /proc/sys passthrough handler
  (src/handler/implementations/procSysCommon.go).

Go strings are modelled as Lean String; cleaned absolute host paths are
modelled as their list of components (List String), with the root "/" being
the empty list; filepath.Dir is List.dropLast and filepath.Join is an
explicit lexical-clean fold, exactly as path/filepath cleans rooted paths.
Machine integers are modelled as Nat / Int: none of the checked claims
exercises overflow.  Fallible operations return Except / Option.

External constants that the repository imports from packages that are not
under src/ are modelled from the spec where they decide a claim and are
marked as such below (domain.SymlinkMax, the access-mode bits, the FUSE
error mapping, copyResultBuffer, ProcessNsMatch).
-/

namespace SysboxFS

/-- Decidable equality for Except results, so concrete runs of the
embedded functions can be settled by decide. -/
instance exceptDecEq {ε α : Type} [DecidableEq ε] [DecidableEq α] :
    DecidableEq (Except ε α)
  | Except.ok a, Except.ok b =>
      if h : a = b then isTrue (h ▸ rfl)
      else isFalse fun hc => h (Except.ok.inj hc)
  | Except.error a, Except.error b =>
      if h : a = b then isTrue (h ▸ rfl)
      else isFalse fun hc => h (Except.error.inj hc)
  | Except.ok _, Except.error _ => isFalse fun hc => Except.noConfusion hc
  | Except.error _, Except.ok _ => isFalse fun hc => Except.noConfusion hc

/-- Errors surfaced by pathAccess (syscall errnos used in part_000). -/
inductive Errno
  | ENOENT
  | ENOTDIR
  | EACCES
  | ELOOP
  | ENAMETOOLONG
  deriving DecidableEq

/-- Go-side error values of the handler code in part_004 and
procSysCommon.go: io.EOF, the errors.New container lookup failure, a
strconv.Atoi failure, and an opaque host-I/O failure. -/
inductive GoErr
  | eof
  | containerNotFound
  | parseErr
  | ioErr
  deriving DecidableEq

/-- Modelled from the spec: domain.SymlinkMax is imported from the domain
package, which is not under src/; the spec fixes it at 40 (SYMLINK_MAX). -/
def SymlinkMax : Nat := 40

/-- syscall.PathMax on linux (Go standard library constant): 4096. -/
def PathMax : Nat := 4096

/-- Modelled from the spec: the domain access-mode bits are imported from
the domain package, not under src/; they are the POSIX access(2) bits the
spec names (R_OK, W_OK, X_OK). -/
def R_OK : Nat := 4

/-- Modelled from the spec: W_OK access bit, see R_OK. -/
def W_OK : Nat := 2

/-- Modelled from the spec: X_OK access bit, see R_OK. -/
def X_OK : Nat := 1

/-! ### Go string helpers -/

/-- Auxiliary recursion of goSplitSlash over the character list. -/
def splitSlashAux : List Char → List Char → List String
  | [], acc => [String.mk acc.reverse]
  | ch :: rest, acc =>
      if ch = '/' then String.mk acc.reverse :: splitSlashAux rest []
      else splitSlashAux rest (ch :: acc)

/-- strings.Split(s, "/"): splits at every slash, keeping empty pieces. -/
def goSplitSlash (s : String) : List String :=
  splitSlashAux s.data []

/-- filepath.IsAbs on linux: the path starts with a slash. -/
def isAbsGo (s : String) : Bool :=
  match s.data with
  | '/' :: _ => true
  | _ => false

/-- strings.TrimSpace: drop whitespace from both ends (the Go function
trims Unicode space; Char.isWhitespace agrees on the ASCII payloads the
handlers see). -/
def goTrimSpace (s : String) : String :=
  String.mk (((s.data.reverse.dropWhile Char.isWhitespace).reverse).dropWhile
    Char.isWhitespace)

/-- Auxiliary digit-list accumulator for goAtoi. -/
def atoiDigits : Nat → List Char → Option Nat
  | acc, [] => some acc
  | acc, c :: cs =>
      if c.isDigit then atoiDigits (acc * 10 + (c.toNat - 48)) cs
      else none

/-- strconv.Atoi: optional sign followed by a nonempty digit string.  The
Go function also fails on 64-bit overflow; the claims checked here never
exercise values near that bound, so the result is an unbounded Int. -/
def goAtoi (s : String) : Option Int :=
  match s.data with
  | [] => none
  | '+' :: ds => if ds = [] then none else (atoiDigits 0 ds).map Int.ofNat
  | '-' :: ds => if ds = [] then none else (atoiDigits 0 ds).map (fun n => -(n : Int))
  | ds => (atoiDigits 0 ds).map Int.ofNat

/-! ### Canonical host paths -/

/-- A cleaned absolute host path, as its list of components; "/" is []. -/
abbrev HPath := List String

/-- The characters of the Go string rendering of a cleaned absolute path:
"/" for the root, "/a/b" otherwise.  Used to model strings.HasPrefix in
the dot-dot clamp of pathAccess. -/
def pathChars (l : HPath) : List Char :=
  if l = [] then ['/'] else (l.map (fun c => '/' :: c.data)).flatten

/-- filepath.Dir on a cleaned absolute path: drop the last component
(Dir of the root is the root). -/
def dirOf (p : HPath) : HPath := p.dropLast

/-- One component step of filepath.Clean on a rooted path: empty and dot
components vanish, dot-dot pops (popping at the root stays at the root),
anything else is pushed. -/
def cleanPush (acc : HPath) (c : String) : HPath :=
  if c = "" ∨ c = "." then acc
  else if c = ".." then acc.dropLast
  else acc ++ [c]

/-- filepath.Join(base, rel) for a rooted base: append the components of
rel and clean lexically, exactly as Go's Clean does. -/
def joinClean (base : HPath) (comps : List String) : HPath :=
  comps.foldl cleanPush base

/-! ### Host filesystem model -/

/-- What a host inode is: a directory, a regular file, or a symlink whose
target is the raw Go string os.Readlink would return. -/
inductive FKind
  | dir
  | regular
  | symlink (target : String)
  deriving DecidableEq

/-- Lstat data of one host path: kind, permission bits (the low nine
bits of fi.Mode().Perm()), and owner uid/gid from syscall.Stat_t. -/
structure FileMeta where
  kind : FKind
  perm : Nat
  fuid : Nat
  fgid : Nat
  deriving DecidableEq

/-- The host filesystem visible through /proc: metadata per cleaned
absolute path, none where Lstat would fail. -/
def Fs : Type := HPath → Option FileMeta

/-- isSymlink of part_000: Lstat, then report (is-symlink, is-dir); the
error case is none.  An Lstat of a symlink reports is-dir false. -/
def isSymlinkAt (fs : Fs) (p : HPath) : Option (Bool × Bool) :=
  (fs p).map (fun m =>
    (match m.kind with | .symlink _ => true | _ => false,
     match m.kind with | .dir => true | _ => false))

/-- os.Readlink: the symlink target, none (an error) on anything else. -/
def readlinkAt (fs : Fs) (p : HPath) : Option String :=
  match fs p with
  | some m =>
      match m.kind with
      | .symlink t => some t
      | _ => none
  | none => none

/-- os.Stat: follow symlinks through the host view (an absolute target
resolves from the host root), with the kernel's symlink budget as fuel.
pathAccess only ever calls it on paths its own loop already resolved, so
the fuel is never the deciding factor there. -/
def statFollow (fs : Fs) : Nat → HPath → Option FileMeta
  | 0, _ => none
  | fuel + 1, p =>
      match fs p with
      | none => none
      | some m =>
          match m.kind with
          | .symlink t =>
              let tp := if isAbsGo t then joinClean [] (goSplitSlash t)
                        else joinClean (dirOf p) (goSplitSlash t)
              statFollow fs fuel tp
          | _ => some m

/-- The calling process as pathAccess sees it after getInfo: root and cwd
(the /proc/[pid]/root and /proc/[pid]/cwd strings, as cleaned paths),
effective uid/gid, supplementary groups, and the two effective
capabilities checkPerm consults. -/
structure Proc where
  root : HPath
  cwd : HPath
  uid : Nat
  gid : Nat
  sgid : List Nat
  capDacOverride : Bool
  capDacReadSearch : Bool

/-! ### checkPerm -/

/-- The permission decision of checkPerm (part_000 lines 461-522) on the
Stat result: owner, group and other class checks in sequence, each
granting when the requested bits are contained in its nibble, then the
CAP_DAC_OVERRIDE and CAP_DAC_READ_SEARCH overrides, in the Go order. -/
def checkPermMeta (pr : Proc) (m : FileMeta) (aMode : Nat) : Bool :=
  let fperm := m.perm
  let mode := aMode
  let isDir : Bool := match m.kind with | .dir => true | _ => false
  if m.fuid = pr.uid ∧ mode &&& ((fperm &&& 0o700) >>> 6) = mode then true
  else if (m.fgid = pr.gid ∨ m.fgid ∈ pr.sgid) ∧
      mode &&& ((fperm &&& 0o070) >>> 3) = mode then true
  else if mode &&& (fperm &&& 0o007) = mode then true
  else if pr.capDacOverride = true ∧
      (isDir = true ∨ aMode &&& X_OK ≠ X_OK ∨ fperm &&& 0o111 ≠ 0) then true
  else if pr.capDacReadSearch = true ∧
      ((isDir = true ∧ aMode &&& W_OK ≠ W_OK) ∨ (isDir = false ∧ aMode = R_OK))
      then true
  else false

/-- checkPerm of part_000: os.Stat the path, then decide; none models the
(false, err) return when Stat fails. -/
def checkPermPath (fs : Fs) (pr : Proc) (p : HPath) (aMode : Nat) : Option Bool :=
  (statFollow fs SymlinkMax p).map (fun m => checkPermMeta pr m aMode)

/-! ### pathAccess -/

/-- Outcome of the inner symlink loop: the rewritten current path, the
isDir flag the loop left behind, and the link counter. -/
structure SymRes where
  cur : HPath
  isDir : Bool
  linkCnt : Nat
  deriving DecidableEq

/-- The symlink-following loop of pathAccess (part_000 lines 384-418).
Along with the result it returns the host paths the loop inspected
(each Readlink and Lstat argument).  The loop body is literal: the ELOOP
gate on linkCnt at the top, Readlink (error becomes ENOENT), rebase of an
absolute target under the process root and of a relative target against
Dir(cur), the stop at the root anchor, the re-Lstat, the stop when no
longer a symlink, and the counter bump.  The extra fuel argument only
makes the recursion structural: callers pass SymlinkMax + 1 - linkCnt, so
fuel can reach 0 only once linkCnt ≥ SymlinkMax, where the gate returns
ELOOP exactly as the fuel-0 branch does. -/
def symLoop (fs : Fs) (root : HPath) :
    Nat → HPath → Bool → Nat → Except Errno SymRes × List HPath
  | 0, _, _, _ => (.error .ELOOP, [])
  | fuel + 1, cur, isDir, linkCnt =>
      if SymlinkMax ≤ linkCnt then (.error .ELOOP, [])
      else
        match readlinkAt fs cur with
        | none => (.error .ENOENT, [cur])
        | some link =>
            let next := if isAbsGo link then joinClean root (goSplitSlash link)
                        else joinClean (dirOf cur) (goSplitSlash link)
            if next = root then (.ok ⟨next, isDir, linkCnt⟩, [cur])
            else
              match isSymlinkAt fs next with
              | none => (.error .ENOENT, [cur, next])
              | some (sym, dir2) =>
                  if sym = false then (.ok ⟨next, dir2, linkCnt⟩, [cur, next])
                  else
                    let rec2 := symLoop fs root fuel next dir2 (linkCnt + 1)
                    (rec2.fst, cur :: next :: rec2.snd)

/-- The per-component loop of pathAccess (part_000 lines 351-435), with
the inspected host paths logged: the Lstat of each component, everything
the symlink loop touches, and the Stat inside checkPerm.  A component is
final when it is the last entry of the split, empty components are
skipped, dot-dot moves to Dir(cur) clamped by the strings.HasPrefix test
against the process root, and dot is a no-op. -/
def walk (fs : Fs) (pr : Proc) (mode : Nat) :
    List String → HPath → Nat → Except Errno Unit × List HPath
  | [], _, _ => (.ok (), [])
  | c :: rest, cur, linkCnt =>
      let final : Bool := rest = []
      if c = "" then walk fs pr mode rest cur linkCnt
      else
        let cur1 :=
          if c = ".." then
            let parent := dirOf cur
            if (pathChars pr.root).isPrefixOf (pathChars parent) then parent
            else pr.root
          else if c = "." then cur
          else cur ++ [c]
        match isSymlinkAt fs cur1 with
        | none => (.error .ENOENT, [cur1])
        | some (sym, dir0) =>
            if final = false ∧ sym = false ∧ dir0 = false then
              (.error .ENOTDIR, [cur1])
            else
              let step : Except Errno (HPath × Nat) × List HPath :=
                if sym = true ∧ cur1 ≠ pr.root then
                  match symLoop fs pr.root (SymlinkMax + 1 - linkCnt) cur1 dir0
                      linkCnt with
                  | (.error e, log) => (.error e, log)
                  | (.ok res, log) =>
                      if final = false ∧ res.isDir = false then
                        (.error .ENOTDIR, log)
                      else (.ok (res.cur, res.linkCnt), log)
                else (.ok (cur1, linkCnt), [])
              match step with
              | (.error e, log) => (.error e, cur1 :: log)
              | (.ok (cur2, cnt2), log) =>
                  let am := if final = true then mode else X_OK
                  match checkPermPath fs pr cur2 am with
                  | some true =>
                      let next := walk fs pr mode rest cur2 cnt2
                      (next.fst, cur1 :: (log ++ cur2 :: next.snd))
                  | _ => (.error .EACCES, cur1 :: (log ++ [cur2]))

/-- pathAccess of part_000 (lines 325-438): empty-path and length guards,
start at the process root for an absolute path and at its cwd otherwise,
then the component walk.  Also returns the log of inspected host paths;
the Go byte length of the checked ASCII paths equals String.length. -/
def pathAccess (fs : Fs) (pr : Proc) (path : String) (mode : Nat) :
    Except Errno Unit × List HPath :=
  if path = "" then (.error .ENOENT, [])
  else if PathMax < path.length + 1 then (.error .ENAMETOOLONG, [])
  else
    let start := if isAbsGo path then pr.root else pr.cwd
    walk fs pr mode (goSplitSlash path) start 0

/-! ### MaxIntBaseHandler (part_004) -/

/-- Host-side actions of the max-int push loop: a ReadLine that produced
the string s, the random sleep of d microseconds, and a WriteFile of the
integer v. -/
inductive PushAct
  | readH (s : String)
  | sleepH (d : Nat)
  | writeH (v : Int)
  deriving DecidableEq

/-- retries of pushFile (part_004 line 279). -/
def pushRetries : Nat := 5

/-- retryDelay of pushFile in microseconds (part_004 line 280). -/
def pushRetryDelay : Nat := 100

/-- The retry loop of MaxIntBaseHandler.pushFile (part_004 lines
282-314), one call per remaining iteration, i being the Go loop index.
The environment is an oracle view of the host: rd i is what the i-th
n.ReadLine returned (string plus optional error, where io.EOF is
tolerated), dl i seeds rand.Intn(retryDelay) — modelled by its contract,
a value in [0, retryDelay) — and wr i is the i-th n.WriteFile error, dropped
when the handler service ignores errors.  The mutex held around the loop
is outside this sequential model.  Returns the Go error result and the
trace of host actions. -/
def pushFileLoop (rd : Nat → String × Option GoErr) (dl : Nat → Nat)
    (wr : Nat → Option GoErr) (ign : Bool) (v : Int) :
    Nat → Nat → Except GoErr Unit × List PushAct
  | 0, _ => (.ok (), [])
  | rem + 1, i =>
      let r := rd i
      let s := r.fst
      let cont : Except GoErr Unit × List PushAct :=
        match goAtoi s with
        | none => (.error .parseErr, [.readH s])
        | some cur =>
            if v ≤ cur then (.ok (), [.readH s])
            else
              let acts := .readH s ::
                ((if 0 < i then [.sleepH (dl i % pushRetryDelay)] else []) ++
                  [.writeH v])
              match wr i with
              | some e =>
                  if ign then
                    let next := pushFileLoop rd dl wr ign v rem (i + 1)
                    (next.fst, acts ++ next.snd)
                  else (.error e, acts)
              | none =>
                  let next := pushFileLoop rd dl wr ign v rem (i + 1)
                  (next.fst, acts ++ next.snd)
      match r.snd with
      | some e => if e = .eof then cont else (.error e, [.readH s])
      | none => cont

/-- MaxIntBaseHandler.pushFile: the loop from iteration 0 with all 5
retries available. -/
def pushFile (rd : Nat → String × Option GoErr) (dl : Nat → Nat)
    (wr : Nat → Option GoErr) (ign : Bool) (v : Int) :
    Except GoErr Unit × List PushAct :=
  pushFileLoop rd dl wr ign v pushRetries 0

/-- MaxIntBaseHandler.Write (part_004 lines 145-208): parse the trimmed
payload, fail ContainerNotFound without a registered container, then
either initialize the cache by pushing to the host, update only the cache
when the new value does not exceed the cached one, or push and re-cache;
a push failure in that last branch is reported as io.EOF.  hasCntr models
req.Container being non-nil, cache the stored Data(path, name) string.
Returns (result with the Go byte count, final cache, host actions). -/
def maxIntWrite (rd : Nat → String × Option GoErr) (dl : Nat → Nat)
    (wr : Nat → Option GoErr) (ign : Bool) (hasCntr : Bool)
    (cache : Option String) (payload : String) :
    Except GoErr Nat × Option String × List PushAct :=
  let newMax := goTrimSpace payload
  match goAtoi newMax with
  | none => (.error .parseErr, cache, [])
  | some newMaxInt =>
      if hasCntr = false then (.error .containerNotFound, cache, [])
      else
        match cache with
        | none =>
            let p := pushFile rd dl wr ign newMaxInt
            match p.fst with
            | .error e => (.error e, cache, p.snd)
            | .ok _ => (.ok payload.length, some newMax, p.snd)
        | some curMax =>
            match goAtoi curMax with
            | none => (.error .parseErr, cache, [])
            | some curMaxInt =>
                if newMaxInt ≤ curMaxInt then
                  (.ok payload.length, some newMax, [])
                else
                  let p := pushFile rd dl wr ign newMaxInt
                  match p.fst with
                  | .error _ => (.error .eof, cache, p.snd)
                  | .ok _ => (.ok payload.length, some newMax, p.snd)

/-! ### ProcSysCommonHandler (procSysCommon.go) -/

/-- Cross-namespace requests and cache mutations a common-handler
operation performs: one constructor per nsenter event kind the handler
dispatches, plus the cntr.SetData cache store. -/
inductive CommonAct
  | nsLookup
  | nsOpen
  | nsReadFile
  | nsWriteFile (s : String)
  | nsReadDir
  | cacheSet (s : String)
  deriving DecidableEq

/-- The fixed context of one common-handler call.  cacheable is the
handler's Cacheable flag.  nsMatch models domain.ProcessNsMatch(process,
cntr.InitProc()) — the domain package is not under src/; per the spec it
compares the pid, user and net namespace inodes of caller and container
init.  fetchOk and pushOk say whether the nsenter ReadFile / WriteFile
round trip succeeds; lookupRes, openRes, readDirRes and setattrRes are
the responses of the other nsenter events (Unit stands for the opaque
payload the claims never inspect). -/
structure CommonEnv where
  cacheable : Bool
  nsMatch : Bool
  fetchOk : Bool
  pushOk : Bool
  lookupRes : Except GoErr Unit
  openRes : Except GoErr Unit
  readDirRes : Except GoErr Unit
  setattrRes : Except GoErr Unit

/-- ProcSysCommonHandler.Read (procSysCommon.go lines 164-228): EOF when
the offset is positive, ContainerNotFound without a container, then
cache-first when the handler is cacheable and the caller shares the
container init's namespaces (on a miss the nsenter ReadFile result — the
helper in part_003 returns the whitespace-trimmed file content — is
cached), otherwise a plain fetch; a newline is appended to the data.
copyResultBuffer is not under src/; per the spec the data is copied to
the output buffer, so the result carries the full data string.  Returns
(result, final cache, actions); host content is the host argument. -/
def commonRead (env : CommonEnv) (hasCntr : Bool) (offset : Nat)
    (cache : Option String) (host : String) :
    Except GoErr String × Option String × List CommonAct :=
  if 0 < offset then (.error .eof, cache, [])
  else if hasCntr = false then (.error .containerNotFound, cache, [])
  else
    if env.cacheable = true ∧ env.nsMatch = true then
      match cache with
      | some data => (.ok (data ++ "\n"), cache, [])
      | none =>
          if env.fetchOk then
            let data := goTrimSpace host
            (.ok (data ++ "\n"), some data, [.nsReadFile, .cacheSet data])
          else (.error .ioErr, cache, [.nsReadFile])
    else
      if env.fetchOk then (.ok (goTrimSpace host ++ "\n"), cache, [.nsReadFile])
      else (.error .ioErr, cache, [.nsReadFile])

/-- ProcSysCommonHandler.Write (procSysCommon.go lines 230-271):
ContainerNotFound without a container; trim the payload; under the same
cacheability condition as Read do the nsenter WriteFile and then store
the value in the cache, otherwise only the write-through.  Returns
(result with the Go byte count, final cache, final host content,
actions). -/
def commonWrite (env : CommonEnv) (hasCntr : Bool) (payload : String)
    (cache : Option String) (host : String) :
    Except GoErr Nat × Option String × String × List CommonAct :=
  if hasCntr = false then (.error .containerNotFound, cache, host, [])
  else
    let newContent := goTrimSpace payload
    if env.cacheable = true ∧ env.nsMatch = true then
      if env.pushOk then
        (.ok payload.length, some newContent, newContent,
          [.nsWriteFile newContent, .cacheSet newContent])
      else (.error .ioErr, cache, host, [.nsWriteFile newContent])
    else
      if env.pushOk then
        (.ok payload.length, cache, newContent, [.nsWriteFile newContent])
      else (.error .ioErr, cache, host, [.nsWriteFile newContent])

/-- ProcSysCommonHandler.Lookup (lines 46-90): ContainerNotFound without
a container, otherwise one nsenter LookupRequest whose response is
propagated. -/
def commonLookup (env : CommonEnv) (hasCntr : Bool) :
    Except GoErr Unit × List CommonAct :=
  if hasCntr = false then (.error .containerNotFound, [])
  else (env.lookupRes, [.nsLookup])

/-- ProcSysCommonHandler.Open (lines 112-158): ContainerNotFound without
a container, otherwise one nsenter OpenFileRequest. -/
def commonOpen (env : CommonEnv) (hasCntr : Bool) :
    Except GoErr Unit × List CommonAct :=
  if hasCntr = false then (.error .containerNotFound, [])
  else (env.openRes, [.nsOpen])

/-- ProcSysCommonHandler.ReadDirAll (lines 273-342): ContainerNotFound
without a container, otherwise one nsenter ReadDirRequest; the merge of
emulated entries into the listing is opaque here (Unit payload). -/
def commonReadDirAll (env : CommonEnv) (hasCntr : Bool) :
    Except GoErr Unit × List CommonAct :=
  if hasCntr = false then (.error .containerNotFound, [])
  else (env.readDirRes, [.nsReadDir])

/-- ProcSysCommonHandler.Setattr (lines 344-383): ContainerNotFound
without a container, otherwise one nsenter OpenFileRequest (the source
reuses the open event for setattr). -/
def commonSetattr (env : CommonEnv) (hasCntr : Bool) :
    Except GoErr Unit × List CommonAct :=
  if hasCntr = false then (.error .containerNotFound, [])
  else (env.setattrRes, [.nsOpen])

/-- Modelled from the spec: the FUSE file node (not under src/) surfaces
a failed common-handler Read to the caller as EACCES (spec scenario:
ContainerNotFound becomes EACCES). -/
def fuseReadErrno (e : GoErr) : Errno :=
  match e with
  | _ => Errno.EACCES

/-- No symlink in the filesystem has a dot-dot component in its target:
under this hypothesis the lexical clean of filepath.Join cannot climb out
of the process root. -/
def NoDotDotTargets (fs : Fs) : Prop :=
  ∀ p m t, fs p = some m → m.kind = FKind.symlink t →
    ∀ c ∈ goSplitSlash t, c ≠ ".."

/-! ### Spec-side trace grammar for the push loop -/

/-- The push-loop behaviour the spec describes, as a grammar over
(result, trace) pairs indexed by the Go iteration number: at most
pushRetries iterations in total (exhausted closes iteration pushRetries
with nothing after the preceding write); every iteration starts with a
host read; an immediate success return when the new value does not
exceed the one just read; a sleep strictly below retryDelay immediately
before the write on every iteration after the first, and no sleep on the
first; and a write only when the parsed read value is smaller than the
new one.  stopErr and readAbort admit the error aborts of the code
(failed read, unparseable content, failed write). -/
inductive PushSpec (v : Int) : Nat → Except GoErr Unit × List PushAct → Prop
  | exhausted : PushSpec v pushRetries (.ok (), [])
  | stopErr (i : Nat) (e : GoErr) : PushSpec v i (.error e, [])
  | successAt (i : Nat) (s : String) (c : Int) :
      i < pushRetries → goAtoi s = some c → v ≤ c →
      PushSpec v i (.ok (), [.readH s])
  | readAbort (i : Nat) (s : String) (e : GoErr) :
      i < pushRetries → PushSpec v i (.error e, [.readH s])
  | firstWrite (s : String) (c : Int) (r : Except GoErr Unit)
      (tr : List PushAct) :
      goAtoi s = some c → c < v →
      PushSpec v 1 (r, tr) →
      PushSpec v 0 (r, .readH s :: .writeH v :: tr)
  | laterWrite (i : Nat) (s : String) (c : Int) (d : Nat)
      (r : Except GoErr Unit) (tr : List PushAct) :
      0 < i → i < pushRetries → goAtoi s = some c → c < v →
      d < pushRetryDelay →
      PushSpec v (i + 1) (r, tr) →
      PushSpec v i (r, .readH s :: .sleepH d :: .writeH v :: tr)

/-! ### Concrete instances used by counterexamples and witnesses -/

/-- The empty host filesystem: every Lstat fails. -/
def fsEmpty : Fs := fun _ => none

/-- A process root of the /proc/[pid]/root shape the code builds. -/
def rootEx : HPath := ["proc", "42", "root"]

/-- A process rooted at rootEx with no capabilities. -/
def prEx : Proc := ⟨rootEx, rootEx, 0, 0, [], false, false⟩

/-- Host filesystem holding a symlink a below the process root whose
target "/.." climbs out of it once rebased: the escape input for C1. -/
def fsEscape : Fs := fun p =>
  if p = rootEx then some ⟨.dir, 0o755, 0, 0⟩
  else if p = rootEx ++ ["a"] then some ⟨.symlink "/..", 0o777, 0, 0⟩
  else if p = ["proc", "42"] then some ⟨.dir, 0o555, 0, 0⟩
  else if p = ["proc"] then some ⟨.dir, 0o555, 0, 0⟩
  else if p = [] then some ⟨.dir, 0o555, 0, 0⟩
  else none

/-- Host filesystem with the symlink cycle a to b to a below the process
root: the ELOOP input for C2. -/
def fsCycle : Fs := fun p =>
  if p = rootEx then some ⟨.dir, 0o755, 0, 0⟩
  else if p = rootEx ++ ["a"] then some ⟨.symlink "/b", 0o777, 0, 0⟩
  else if p = rootEx ++ ["b"] then some ⟨.symlink "/a", 0o777, 0, 0⟩
  else none

/-- Host filesystem with one well-behaved symlink a to the directory d,
used by the C2 witness. -/
def fsOneLink : Fs := fun p =>
  if p = rootEx then some ⟨.dir, 0o755, 0, 0⟩
  else if p = rootEx ++ ["a"] then some ⟨.symlink "/d", 0o777, 0, 0⟩
  else if p = rootEx ++ ["d"] then some ⟨.dir, 0o755, 0, 0⟩
  else none

/-- A path of exactly PathMax characters: the C8 boundary input. -/
def longPath : String := String.mk (List.replicate PathMax 'a')

/-- Read oracle whose host always answers 3. -/
def rdThree : Nat → String × Option GoErr := fun _ => ("3", none)

/-- Sleep-seed oracle fixed at 7. -/
def dlSeven : Nat → Nat := fun _ => 7

/-- Write oracle that always succeeds. -/
def wrOk : Nat → Option GoErr := fun _ => none

/-- Write oracle that always fails with a host-I/O error. -/
def wrFail : Nat → Option GoErr := fun _ => some .ioErr

/-- Common-handler environment for the witnesses: cacheable, namespace
match, healthy nsenter pipeline. -/
def envOk : CommonEnv :=
  ⟨true, true, true, true, .ok (), .ok (), .ok (), .ok ()⟩

/-- Common-handler environment without the namespace match, write-through
only. -/
def envNoMatch : CommonEnv :=
  ⟨true, false, true, true, .ok (), .ok (), .ok (), .ok ()⟩

/-- Common-handler environment with caching disabled. -/
def envNoCache : CommonEnv :=
  ⟨false, true, true, true, .ok (), .ok (), .ok (), .ok ()⟩

/-- A process with only CAP_DAC_READ_SEARCH, uid/gid 0. -/
def prCapRS : Proc := ⟨[], [], 0, 0, [], false, true⟩

/-- A process with both DAC capabilities, uid/gid 0. -/
def prBothCaps : Proc := ⟨[], [], 0, 0, [], true, true⟩

/-- An uncapable process with uid 1000, gid 1000. -/
def prUid1000 : Proc := ⟨[], [], 1000, 1000, [], false, false⟩

/-! ### Theorems -/

/-- Helper for C3: every reachable state of the push retry loop produces
a result and trace admitted by the PushSpec grammar, by induction on the
remaining iterations. -/
theorem pushFileLoop_spec (rd : Nat → String × Option GoErr) (dl : Nat → Nat)
    (wr : Nat → Option GoErr) (ign : Bool) (v : Int) :
    ∀ rem i, i + rem = pushRetries →
      PushSpec v i (pushFileLoop rd dl wr ign v rem i) := by
  intro rem
  induction rem with
  | zero =>
      intro i hi
      have h5 : i = pushRetries := by omega
      subst h5
      exact PushSpec.exhausted
  | succ rem ih =>
      intro i hi
      have hlt : i < pushRetries := by omega
      rcases hr : rd i with ⟨s, re⟩
      rcases hnext : pushFileLoop rd dl wr ign v rem (i + 1) with ⟨r2, tr2⟩
      have hn : PushSpec v (i + 1) (r2, tr2) := by
        rw [← hnext]; exact ih (i + 1) (by omega)
      have key : PushSpec v i
          (match goAtoi s with
            | none => (Except.error GoErr.parseErr, [PushAct.readH s])
            | some cur =>
                if v ≤ cur then (Except.ok (), [PushAct.readH s])
                else
                  let acts := PushAct.readH s ::
                    ((if 0 < i then [PushAct.sleepH (dl i % pushRetryDelay)]
                      else []) ++ [PushAct.writeH v])
                  match wr i with
                  | some e =>
                      if ign then
                        let next := pushFileLoop rd dl wr ign v rem (i + 1)
                        (next.fst, acts ++ next.snd)
                      else (Except.error e, acts)
                  | none =>
                      let next := pushFileLoop rd dl wr ign v rem (i + 1)
                      (next.fst, acts ++ next.snd)) := by
        cases hA : goAtoi s with
        | none => exact PushSpec.readAbort i s _ hlt
        | some cur =>
            by_cases hv : v ≤ cur
            · simp only [if_pos hv]
              exact PushSpec.successAt i s cur hlt hA hv
            · simp only [if_neg hv]
              have hcv : cur < v := by omega
              have hd : dl i % pushRetryDelay < pushRetryDelay :=
                Nat.mod_lt _ (by decide)
              cases hw : wr i with
              | some e2 =>
                  by_cases hign : ign = true
                  · simp only [if_pos hign, hnext]
                    rcases Nat.eq_zero_or_pos i with hz | hp
                    · subst hz
                      simp only [Nat.lt_irrefl, if_neg, List.nil_append,
                        List.cons_append, List.singleton_append]
                      exact PushSpec.firstWrite s cur _ _ hA hcv hn
                    · simp only [if_pos hp, List.cons_append,
                        List.singleton_append]
                      exact PushSpec.laterWrite i s cur _ _ _ hp hlt hA hcv hd hn
                  · simp only [if_neg hign]
                    rcases Nat.eq_zero_or_pos i with hz | hp
                    · subst hz
                      simp only [Nat.lt_irrefl, if_neg, List.nil_append]
                      exact PushSpec.firstWrite s cur _ _ hA hcv
                        (PushSpec.stopErr 1 e2)
                    · simp only [if_pos hp]
                      exact PushSpec.laterWrite i s cur _ _ _ hp hlt hA hcv hd
                        (PushSpec.stopErr (i + 1) e2)
              | none =>
                  simp only [hnext]
                  rcases Nat.eq_zero_or_pos i with hz | hp
                  · subst hz
                    simp only [Nat.lt_irrefl, if_neg, List.nil_append,
                      List.cons_append, List.singleton_append]
                    exact PushSpec.firstWrite s cur _ _ hA hcv hn
                  · simp only [if_pos hp, List.cons_append,
                      List.singleton_append]
                    exact PushSpec.laterWrite i s cur _ _ _ hp hlt hA hcv hd hn
      simp only [pushFileLoop, hr]
      cases re with
      | some e =>
          by_cases he : e = GoErr.eof
          · simpa only [if_pos he, he] using key
          · simp only [if_neg he]
            exact PushSpec.readAbort i s e hlt
      | none => exact key

/-- C3: MaxIntBaseHandler.pushFile loops at most 5 times; every
iteration starts by reading the current host value and returns success
immediately when the new value is less than or equal to it; on every
iteration after the first it sleeps a delay in [0, 100) microseconds
immediately before writing, and on the first it writes without sleeping;
and a run that uses all 5 iterations ends with its final write, with no
read after it.  The per-handler mutex and the uniformity of the random
delay are not expressible in this sequential model; rand.Intn is
modelled by its contract of returning a value in [0, n). -/
theorem pushFile_follows_push_protocol
    (rd : Nat → String × Option GoErr) (dl : Nat → Nat)
    (wr : Nat → Option GoErr) (ign : Bool) (v : Int) :
    PushSpec v 0 (pushFile rd dl wr ign v) :=
  pushFileLoop_spec rd dl wr ign v pushRetries 0 rfl

/-- Bit 0 of the class nibble must be set when a mode with bit 0 set is
contained in it. -/
theorem bit0_of_and_selfEq {a p : Nat} (ha : a.testBit 0 = true)
    (h : a &&& p = a) : p.testBit 0 = true := by
  have h1 := congrArg (fun x => Nat.testBit x 0) h
  simp only [Nat.testBit_and, ha, Bool.true_and] at h1
  exact h1

theorem bit_false_of_and_zero {f m : Nat} (i : Nat) (h : f &&& m = 0)
    (hm : m.testBit i = true) : f.testBit i = false := by
  have h1 := congrArg (fun x => Nat.testBit x i) h
  simp only [Nat.testBit_and, hm, Bool.and_true, Nat.zero_testBit] at h1
  exact h1

theorem testBit0_of_and_one {a : Nat} (ha : a &&& 1 = 1) :
    a.testBit 0 = true := by
  have h1 := congrArg (fun x => Nat.testBit x 0) ha
  simpa [Nat.testBit_and] using h1

theorem checkPerm_no_exec (pr : Proc) (m : FileMeta) (aMode : Nat)
    (hk : m.kind ≠ FKind.dir) (hx : aMode &&& X_OK = X_OK)
    (hp : m.perm &&& 0o111 = 0) :
    checkPermMeta pr m aMode = false := by
  have hx1 : aMode &&& 1 = 1 := hx
  have ha0 : aMode.testBit 0 = true := testBit0_of_and_one hx1
  rcases m with ⟨k, fperm, fuid, fgid⟩
  have hp' : fperm &&& 0o111 = 0 := hp
  have hb0 : fperm.testBit 0 = false := bit_false_of_and_zero 0 hp' (by decide)
  have hb3 : fperm.testBit 3 = false := bit_false_of_and_zero 3 hp' (by decide)
  have hb6 : fperm.testBit 6 = false := bit_false_of_and_zero 6 hp' (by decide)
  simp only [checkPermMeta]
  split
  · rename_i h1
    exfalso
    have hg := bit0_of_and_selfEq ha0 h1.2
    rw [Nat.testBit_shiftRight, Nat.testBit_and] at hg
    simp [hb6] at hg
  · split
    · rename_i h2
      exfalso
      have hg := bit0_of_and_selfEq ha0 h2.2
      rw [Nat.testBit_shiftRight, Nat.testBit_and] at hg
      simp [hb3] at hg
    · split
      · rename_i h3
        exfalso
        have hg := bit0_of_and_selfEq ha0 h3
        rw [Nat.testBit_and] at hg
        simp [hb0] at hg
      · split
        · rename_i h4
          exfalso
          rcases h4.2 with hd | hnx | hnp
          · cases k with
            | dir => exact hk rfl
            | regular => simp at hd
            | symlink t => simp at hd
          · exact hnx hx1
          · exact hnp hp'
        · split
          · rename_i h5
            exfalso
            rcases h5.2 with ⟨hd, _⟩ | ⟨_, hr⟩
            · cases k with
              | dir => exact hk rfl
              | regular => simp at hd
              | symlink t => simp at hd
            · rw [hr] at hx1
              simp [R_OK, X_OK] at hx1
          · rfl

theorem checkPerm_capability_overrides (pr : Proc) (m : FileMeta) (aMode : Nat) :
    (pr.capDacOverride = true → m.kind = FKind.dir →
      checkPermMeta pr m aMode = true) ∧
    (pr.capDacOverride = true → aMode &&& X_OK ≠ X_OK →
      checkPermMeta pr m aMode = true) ∧
    (pr.capDacOverride = true → m.perm &&& 0o111 ≠ 0 →
      checkPermMeta pr m aMode = true) ∧
    (m.kind ≠ FKind.dir → aMode &&& X_OK = X_OK → m.perm &&& 0o111 = 0 →
      checkPermMeta pr m aMode = false) ∧
    (pr.capDacReadSearch = true → m.kind = FKind.dir →
      aMode &&& W_OK ≠ W_OK → checkPermMeta pr m aMode = true) ∧
    (pr.capDacReadSearch = true → m.kind ≠ FKind.dir → aMode = R_OK →
      checkPermMeta pr m aMode = true) := by
  refine ⟨?_, ?_, ?_, ?_, ?_, ?_⟩
  · intro hc hd
    simp [checkPermMeta, hc, hd]
  · intro hc hnx
    simp [checkPermMeta, hc, hnx]
  · intro hc hnp
    simp [checkPermMeta, hc, hnp]
  · exact fun hk hx hp => checkPerm_no_exec pr m aMode hk hx hp
  · intro hc hd hnw
    simp [checkPermMeta, hc, hd, hnw]
  · intro hc hk hr
    subst hr
    rcases m with ⟨k, fperm, fuid, fgid⟩
    cases k with
    | dir => exact absurd rfl hk
    | regular => simp [checkPermMeta, hc, R_OK, X_OK, W_OK]
    | symlink t => simp [checkPermMeta, hc, R_OK, X_OK, W_OK]

theorem checkPerm_read_search_only_cex :
    (FileMeta.mk .regular 0o200 0 0).kind ≠ FKind.dir ∧ W_OK ≠ R_OK ∧
    checkPermMeta prCapRS (FileMeta.mk .regular 0o200 0 0) W_OK = true := by
  decide

theorem checkPerm_other_class_grants (pr : Proc) (m : FileMeta) (aMode : Nat)
    (h : aMode &&& (m.perm &&& 0o007) = aMode) :
    checkPermMeta pr m aMode = true := by
  simp only [checkPermMeta]
  split
  · rfl
  · split
    · rfl
    · rfl


/-- C6 witness: concrete applications of the capability-override theorem:
a process holding both capabilities is denied execute on a regular file
rw------- owned by someone else, and is granted rwx on a directory it
does not own. -/
theorem checkPerm_capability_overrides_witness :
    checkPermMeta prBothCaps ⟨.regular, 0o600, 5, 5⟩ 5 = false ∧
    checkPermMeta prBothCaps ⟨.dir, 0o700, 5, 5⟩ 7 = true :=
  ⟨(checkPerm_capability_overrides prBothCaps ⟨.regular, 0o600, 5, 5⟩ 5).2.2.2.1
      (by decide) (by decide) (by decide),
    (checkPerm_capability_overrides prBothCaps ⟨.dir, 0o700, 5, 5⟩ 7).1
      (by decide) (by decide)⟩

/-- C9 witness: the owner matches and the owner nibble denies read, yet
access is granted because the other nibble contains it. -/
theorem checkPerm_other_class_grants_witness :
    (FileMeta.mk .regular 0o007 1000 42).fuid = prUid1000.uid ∧
    R_OK &&& (((FileMeta.mk .regular 0o007 1000 42).perm &&& 0o700) >>> 6) ≠
      R_OK ∧
    checkPermMeta prUid1000 ⟨.regular, 0o007, 1000, 42⟩ R_OK = true :=
  ⟨by decide, by decide,
    checkPerm_other_class_grants prUid1000 ⟨.regular, 0o007, 1000, 42⟩ R_OK
      (by decide)⟩


/-- C4: for a max-int sysctl Write by a registered container, a payload
that does not parse as an integer fails before any cache or host
mutation; with a cached value at least as large as the new value, only
the cache is updated and the host sees no action; with no cached value,
or a strictly larger new value, the value is pushed to the host (the
actions of pushFile) and then cached. -/
theorem maxIntWrite_cache_host_protocol (rd : Nat → String × Option GoErr) (dl : Nat → Nat)
    (wr : Nat → Option GoErr) (ign : Bool) (payload : String)
    (cache : Option String) :
    (goAtoi (goTrimSpace payload) = none → ∀ hc : Bool,
      maxIntWrite rd dl wr ign hc cache payload =
        (.error .parseErr, cache, [])) ∧
    (∀ v c ci, goAtoi (goTrimSpace payload) = some v → cache = some c →
      goAtoi c = some ci → v ≤ ci →
      maxIntWrite rd dl wr ign true cache payload =
        (.ok payload.length, some (goTrimSpace payload), [])) ∧
    (∀ v, goAtoi (goTrimSpace payload) = some v → cache = none →
      (pushFile rd dl wr ign v).fst = .ok () →
      maxIntWrite rd dl wr ign true cache payload =
        (.ok payload.length, some (goTrimSpace payload),
          (pushFile rd dl wr ign v).snd)) ∧
    (∀ v c ci, goAtoi (goTrimSpace payload) = some v → cache = some c →
      goAtoi c = some ci → ci < v →
      (pushFile rd dl wr ign v).fst = .ok () →
      maxIntWrite rd dl wr ign true cache payload =
        (.ok payload.length, some (goTrimSpace payload),
          (pushFile rd dl wr ign v).snd)) := by
  refine ⟨?_, ?_, ?_, ?_⟩
  · intro hparse hc
    simp [maxIntWrite, hparse]
  · intro v c ci hparse hcache hci hle
    subst hcache
    have hnlt : ¬ ci < v := by omega
    simp [maxIntWrite, hparse, hci, hle]
  · intro v hparse hcache hpush
    subst hcache
    rcases hP : pushFile rd dl wr ign v with ⟨res, acts⟩
    rw [hP] at hpush
    simp only at hpush
    subst hpush
    simp [maxIntWrite, hparse, hP]
  · intro v c ci hparse hcache hci hlt hpush
    subst hcache
    have hnle : ¬ v ≤ ci := by omega
    rcases hP : pushFile rd dl wr ign v with ⟨res, acts⟩
    rw [hP] at hpush
    simp only at hpush
    subst hpush
    simp [maxIntWrite, hparse, hci, hnle, hP]

/-- C10: when a cached value exists, the new value is strictly greater,
and the push to the host fails, MaxIntBaseHandler.Write returns io.EOF
(with a zero byte count) rather than the underlying push error, and the
cached value is left unchanged. -/
theorem maxIntWrite_push_failure_eof (rd : Nat → String × Option GoErr)
    (dl : Nat → Nat) (wr : Nat → Option GoErr) (ign : Bool)
    (payload c : String) (v ci : Int) (e : GoErr)
    (hparse : goAtoi (goTrimSpace payload) = some v)
    (hci : goAtoi c = some ci) (hlt : ci < v)
    (hpush : (pushFile rd dl wr ign v).fst = .error e) :
    maxIntWrite rd dl wr ign true (some c) payload =
      (.error .eof, some c, (pushFile rd dl wr ign v).snd) := by
  have hnle : ¬ v ≤ ci := by omega
  rcases hP : pushFile rd dl wr ign v with ⟨res, acts⟩
  rw [hP] at hpush
  simp only at hpush
  subst hpush
  simp [maxIntWrite, hparse, hci, hnle, hP]


/-- C4 witness: concrete runs of the four branches: an unparseable
payload, a smaller-than-cache write, a first write with an empty cache,
and a larger-than-cache write, against a host that answers 3 and accepts
writes. -/
theorem maxIntWrite_cache_host_protocol_witness :
    maxIntWrite rdThree dlSeven wrOk false true none "abc" =
      (.error .parseErr, none, []) ∧
    maxIntWrite rdThree dlSeven wrOk false true (some "3") "2" =
      (.ok 1, some "2", []) ∧
    maxIntWrite rdThree dlSeven wrOk false true none "5" =
      (.ok 1, some "5", (pushFile rdThree dlSeven wrOk false 5).snd) ∧
    maxIntWrite rdThree dlSeven wrOk false true (some "3") "5" =
      (.ok 1, some "5", (pushFile rdThree dlSeven wrOk false 5).snd) :=
  ⟨(maxIntWrite_cache_host_protocol rdThree dlSeven wrOk false "abc" none).1
      (by decide) true,
    (maxIntWrite_cache_host_protocol rdThree dlSeven wrOk false "2"
        (some "3")).2.1 2 "3" 3 (by decide) rfl (by decide) (by decide),
    (maxIntWrite_cache_host_protocol rdThree dlSeven wrOk false "5"
        none).2.2.1 5 (by decide) rfl (by decide),
    (maxIntWrite_cache_host_protocol rdThree dlSeven wrOk false "5"
        (some "3")).2.2.2 5 "3" 3 (by decide) rfl (by decide) (by decide)
      (by decide)⟩

/-- C10 witness: a host that answers 3 but fails every write: the push
fails with the host-I/O error, yet Write reports io.EOF, and the cached
value 3 is untouched. -/
theorem maxIntWrite_push_failure_eof_witness :
    GoErr.ioErr ≠ GoErr.eof ∧
    maxIntWrite rdThree dlSeven wrFail false true (some "3") "5" =
      (.error .eof, some "3", (pushFile rdThree dlSeven wrFail false 5).snd) :=
  ⟨by decide,
    maxIntWrite_push_failure_eof rdThree dlSeven wrFail false "5" "3" 5 3
      .ioErr (by decide) (by decide) (by decide) (by decide)⟩

/-- Head of a dropWhile result never satisfies the dropped predicate. -/
theorem dropWhile_head_not (p : Char → Bool) :
    ∀ l : List Char, ∀ c, (l.dropWhile p).head? = some c → p c = false := by
  intro l
  induction l with
  | nil => intro c h; simp at h
  | cons a as ih =>
      intro c h
      by_cases hp : p a
      · rw [List.dropWhile_cons_of_pos hp] at h
        exact ih c h
      · rw [List.dropWhile_cons_of_neg hp] at h
        simp at h
        subst h
        simpa using hp

/-- dropWhile is the identity when the head already fails the
predicate. -/
theorem dropWhile_of_head_not (p : Char → Bool) (l : List Char)
    (h : ∀ c, l.head? = some c → p c = false) : l.dropWhile p = l := by
  cases l with
  | nil => rfl
  | cons a as =>
      have := h a rfl
      rw [List.dropWhile_cons_of_neg (by simp [this])]

/-- dropWhile keeps the last element when its result is nonempty. -/
theorem dropWhile_getLast (p : Char → Bool) :
    ∀ l : List Char, l.dropWhile p ≠ [] →
      (l.dropWhile p).getLast? = l.getLast? := by
  intro l
  induction l with
  | nil => intro h; simp at h
  | cons a as ih =>
      intro h
      by_cases hp : p a
      · rw [List.dropWhile_cons_of_pos hp] at h ⊢
        rw [ih h]
        cases as with
        | nil => simp at h
        | cons b bs => rw [List.getLast?_cons_cons]
      · rw [List.dropWhile_cons_of_neg hp]

/-- dropWhile is idempotent. -/
theorem dropWhile_dropWhile (p : Char → Bool) (l : List Char) :
    (l.dropWhile p).dropWhile p = l.dropWhile p :=
  dropWhile_of_head_not p _ (fun c h => dropWhile_head_not p l c h)

/-- strings.TrimSpace is idempotent. -/
theorem goTrimSpace_idem (s : String) :
    goTrimSpace (goTrimSpace s) = goTrimSpace s := by
  rcases s with ⟨l⟩
  show goTrimSpace
      ⟨((l.reverse.dropWhile Char.isWhitespace).reverse).dropWhile
        Char.isWhitespace⟩ = _
  rcases htd : ((l.reverse.dropWhile Char.isWhitespace).reverse).dropWhile
      Char.isWhitespace with _ | ⟨a, as⟩
  · simp [goTrimSpace, htd]
  · have hne : ((l.reverse.dropWhile Char.isWhitespace).reverse).dropWhile
        Char.isWhitespace ≠ [] := by rw [htd]; simp
    have hlast : ∀ c,
        (((l.reverse.dropWhile Char.isWhitespace).reverse).dropWhile
          Char.isWhitespace).getLast? = some c →
          Char.isWhitespace c = false := by
      intro c hc
      rw [dropWhile_getLast _ _ hne] at hc
      rw [List.getLast?_reverse] at hc
      exact dropWhile_head_not _ _ _ hc
    show String.mk _ = String.mk _
    rw [htd] at hlast ⊢
    congr 1
    have hrev : (a :: as).reverse.dropWhile Char.isWhitespace =
        (a :: as).reverse := by
      apply dropWhile_of_head_not
      intro c hc
      rw [List.head?_reverse] at hc
      exact hlast c hc
    rw [hrev, List.reverse_reverse]
    rw [← htd, dropWhile_dropWhile]

/-- C8 amended: pathAccess returns ENOENT for the empty path before any
filesystem access; it returns ENAMETOOLONG, again before any filesystem
access, exactly for paths whose length plus one exceeds PATH_MAX (that
is, length at least PATH_MAX, one byte earlier than the claim's strictly
greater than PATH_MAX); every other path proceeds to the component
traversal from the process root or cwd. -/
theorem pathAccess_guards (fs : Fs) (pr : Proc) (mode : Nat) :
    (pathAccess fs pr "" mode = (.error .ENOENT, [])) ∧
    (∀ path : String, PathMax ≤ path.length →
      pathAccess fs pr path mode = (.error .ENAMETOOLONG, [])) ∧
    (∀ path : String, path ≠ "" → path.length < PathMax →
      pathAccess fs pr path mode =
        walk fs pr mode (goSplitSlash path)
          (if isAbsGo path then pr.root else pr.cwd) 0) := by
  refine ⟨rfl, ?_, ?_⟩
  · intro path hlen
    have hne : path ≠ "" := by
      intro h
      subst h
      simp [String.length, PathMax] at hlen
    have hgt : PathMax < path.length + 1 := by omega
    simp [pathAccess, hne, hgt]
  · intro path hne hlt
    have hngt : ¬ PathMax < path.length + 1 := by omega
    simp [pathAccess, hne, hngt]

/-- C8 counterexample: a path of length exactly PATH_MAX does not
exceed PATH_MAX, yet pathAccess rejects it with ENAMETOOLONG because the
code tests length + 1 against PATH_MAX. -/
theorem pathAccess_length_boundary_cex :
    longPath.length = PathMax ∧ ¬ PathMax < longPath.length ∧
    (pathAccess fsEmpty prEx longPath 4).fst = .error .ENAMETOOLONG := by
  have hlen : longPath.length = PathMax := by
    show (List.replicate PathMax 'a').length = PathMax
    simp
  refine ⟨hlen, by omega, ?_⟩
  have hne : longPath ≠ "" := by
    intro h
    rw [h] at hlen
    simp [PathMax, String.length] at hlen
  have hgt : PathMax < longPath.length + 1 := by omega
  simp [pathAccess, hne, hgt]

/-- C8 witness: the empty path gives ENOENT, and a one-character path
passes both guards into the component walk. -/
theorem pathAccess_guards_witness :
    pathAccess fsEmpty prEx "" 4 = (.error .ENOENT, []) ∧
    pathAccess fsEmpty prEx "x" 4 =
      walk fsEmpty prEx 4 (goSplitSlash "x")
        (if isAbsGo "x" then prEx.root else prEx.cwd) 0 :=
  ⟨(pathAccess_guards fsEmpty prEx 4).1,
    (pathAccess_guards fsEmpty prEx 4).2.2 "x" (by decide) (by decide)⟩

/-- Helper for C2: a successful symlink loop leaves a link counter that
only grew and stayed strictly below SymlinkMax (every stop happens under
the gate), by induction on the loop. -/
theorem symLoop_ok_linkCnt_bound (fs : Fs) (root : HPath) :
    ∀ fuel cur isDir cnt res log,
      symLoop fs root fuel cur isDir cnt = (.ok res, log) →
      cnt ≤ res.linkCnt ∧ res.linkCnt < SymlinkMax := by
  intro fuel
  induction fuel with
  | zero =>
      intro cur isDir cnt res log h
      simp [symLoop] at h
  | succ fuel ih =>
      intro cur isDir cnt res log h
      simp only [symLoop] at h
      by_cases hg : SymlinkMax ≤ cnt
      · rw [if_pos hg] at h
        simp at h
      · rw [if_neg hg] at h
        cases hrl : readlinkAt fs cur with
        | none => rw [hrl] at h; simp at h
        | some link =>
            rw [hrl] at h
            simp only at h
            by_cases hroot :
                (if isAbsGo link then joinClean root (goSplitSlash link)
                  else joinClean (dirOf cur) (goSplitSlash link)) = root
            · rw [if_pos hroot] at h
              simp [Prod.mk.injEq] at h
              rcases h with ⟨hres, -⟩
              rw [← hres]
              exact ⟨by simp, by simp; omega⟩
            · rw [if_neg hroot] at h
              cases hsym : isSymlinkAt fs
                  (if isAbsGo link then joinClean root (goSplitSlash link)
                    else joinClean (dirOf cur) (goSplitSlash link)) with
              | none => rw [hsym] at h; simp at h
              | some sd =>
                  rw [hsym] at h
                  rcases sd with ⟨sym, dir2⟩
                  simp only at h
                  by_cases hs : sym = false
                  · rw [if_pos hs] at h
                    simp [Prod.mk.injEq] at h
                    rcases h with ⟨hres, -⟩
                    rw [← hres]
                    exact ⟨by simp, by simp; omega⟩
                  · rw [if_neg hs] at h
                    simp only [Prod.mk.injEq] at h
                    rcases h with ⟨hfst, -⟩
                    rcases hrec : symLoop fs root fuel
                        (if isAbsGo link then joinClean root (goSplitSlash link)
                          else joinClean (dirOf cur) (goSplitSlash link))
                        dir2 (cnt + 1) with ⟨r2, l2⟩
                    rw [hrec] at hfst
                    simp only at hfst
                    have := ih _ dir2 (cnt + 1) res l2 (by rw [hrec, hfst])
                    omega

/-- C2: the symlink loop of pathAccess returns ELOOP as soon as the
cumulative link count reaches SymlinkMax (40), at any fuel; a loop that
succeeds has followed strictly fewer than 40 cumulative links across the
whole traversal (the counter is threaded, never reset); and the concrete
cycle a to b to a below the process root makes pathAccess return ELOOP.
Termination itself holds by construction: the fuel passed by the walk,
SymlinkMax + 1 - linkCnt, dominates the gate. -/
theorem pathAccess_symlink_budget :
    (∀ (fs : Fs) (root : HPath) (fuel : Nat) (cur : HPath) (isDir : Bool)
        (cnt : Nat), SymlinkMax ≤ cnt →
      (symLoop fs root fuel cur isDir cnt).fst = .error .ELOOP) ∧
    (∀ (fs : Fs) (root : HPath) (fuel : Nat) (cur : HPath) (isDir : Bool)
        (cnt : Nat) (res : SymRes) (log : List HPath),
      symLoop fs root fuel cur isDir cnt = (.ok res, log) →
      cnt ≤ res.linkCnt ∧ res.linkCnt < SymlinkMax) ∧
    ((pathAccess fsCycle prEx "/a" R_OK).fst = .error .ELOOP) := by
  refine ⟨?_, ?_, ?_⟩
  · intro fs root fuel cur isDir cnt hge
    cases fuel with
    | zero => rfl
    | succ fuel => simp [symLoop, hge]
  · exact fun fs root => symLoop_ok_linkCnt_bound fs root
  · decide


/-- C2 witness: the gate fires at a counter of exactly 40 on any state,
and a single healthy symlink resolves with the counter still 0, within
the budget. -/
theorem pathAccess_symlink_budget_witness :
    (symLoop fsEmpty [] 5 [] false SymlinkMax).fst =
      Except.error Errno.ELOOP ∧
    (0 ≤ SymRes.linkCnt ⟨rootEx ++ ["d"], true, 0⟩ ∧
      SymRes.linkCnt ⟨rootEx ++ ["d"], true, 0⟩ < SymlinkMax) :=
  ⟨pathAccess_symlink_budget.1 fsEmpty [] 5 [] false SymlinkMax
      (le_refl _),
    pathAccess_symlink_budget.2.1 fsOneLink rootEx 41 (rootEx ++ ["a"])
      false 0 ⟨rootEx ++ ["d"], true, 0⟩ [rootEx ++ ["a"], rootEx ++ ["d"]]
      (by decide)⟩

/-- dropLast of an append drops from the right part when it is
nonempty. -/
theorem dropLast_append_left {α : Type} (a : List α) :
    ∀ b : List α, b ≠ [] → (a ++ b).dropLast = a ++ b.dropLast := by
  induction a with
  | nil => intro b _; rfl
  | cons x xs ih =>
      intro b hb
      have hne : xs ++ b ≠ [] := by
        simp [hb]
      rw [List.cons_append, List.dropLast_cons_of_ne_nil hne, ih b hb,
        List.cons_append]

/-- A boolean list prefix is no longer than the list it prefixes. -/
theorem isPrefixOf_le_length {α : Type} [BEq α] :
    ∀ a b : List α, a.isPrefixOf b = true → a.length ≤ b.length := by
  intro a
  induction a with
  | nil => intro b _; simp
  | cons x xs ih =>
      intro b h
      cases b with
      | nil => simp [List.isPrefixOf] at h
      | cons y ys =>
          rw [List.isPrefixOf_cons₂] at h
          rcases Bool.and_eq_true_iff.mp h with ⟨-, h2⟩
          have := ih ys h2
          simp
          omega

/-- Helper for C1: the lexical clean of a join keeps a root that
already bounds the base, as long as no joined component is dot-dot. -/
theorem joinClean_keeps_root (root : HPath) :
    ∀ comps base, (∀ c ∈ comps, c ≠ "..") →
      (∃ t, base = root ++ t) → ∃ u, joinClean base comps = root ++ u := by
  intro comps
  induction comps with
  | nil =>
      intro base h hb
      simpa [joinClean] using hb
  | cons c cs ih =>
      intro base h hb
      have hc : c ≠ ".." := h c (by simp)
      have hcs : ∀ x ∈ cs, x ≠ ".." := fun x hx => h x (by simp [hx])
      show ∃ u, joinClean (cleanPush base c) cs = root ++ u
      apply ih _ hcs
      rcases hb with ⟨t, rfl⟩
      by_cases h1 : c = "" ∨ c = "."
      · exact ⟨t, by simp [cleanPush, h1]⟩
      · exact ⟨t ++ [c], by simp [cleanPush, h1, hc]⟩

/-- Helper for C1: the rendered parent of a nonempty root with
nonempty components is strictly shorter than the rendered root. -/
theorem pathChars_length_dirOf (root : HPath) (h0 : root ≠ [])
    (h1 : ∀ c ∈ root, c ≠ "") :
    (pathChars (dirOf root)).length < (pathChars root).length := by
  rcases List.eq_nil_or_concat root with rfl | ⟨dl, a, rfl⟩
  · exact absurd rfl h0
  · simp only [List.concat_eq_append] at h0 h1 ⊢
    have ha : a ≠ "" := h1 a (by simp)
    have hadata : a.data ≠ [] := by
      intro h
      apply ha
      cases a
      simp at h
      simp [h]
    have hdircalc : dirOf (dl ++ [a]) = dl := by
      simp [dirOf]
    rw [hdircalc]
    cases hdl : dl with
    | nil =>
        simp [pathChars]
        first
          | exact hadata
          | exact List.length_pos.mpr hadata
    | cons d ds =>
        have hne : dl ≠ [] := by rw [hdl]; simp
        rw [← hdl]
        simp only [pathChars, if_neg hne,
          if_neg (show dl ++ [a] ≠ [] by simp)]
        rw [List.map_append, List.flatten_append]
        simp

/-- Helper for C1: the strings.HasPrefix test of the dot-dot clamp
fails on the parent of the process root, so the clamp takes effect
exactly at the root. -/
theorem root_not_strPrefix_dirOf (root : HPath) (h0 : root ≠ [])
    (h1 : ∀ c ∈ root, c ≠ "") :
    (pathChars root).isPrefixOf (pathChars (dirOf root)) = false := by
  by_contra h
  have hT : (pathChars root).isPrefixOf (pathChars (dirOf root)) = true := by
    revert h
    cases (pathChars root).isPrefixOf (pathChars (dirOf root)) <;> simp
  have hle := isPrefixOf_le_length _ _ hT
  have hlt := pathChars_length_dirOf root h0 h1
  omega

/-- A link read from a NoDotDotTargets filesystem has no dot-dot
component. -/
theorem readlinkAt_target {fs : Fs} {p : HPath} {link : String}
    (hfs : NoDotDotTargets fs) (h : readlinkAt fs p = some link) :
    ∀ c ∈ goSplitSlash link, c ≠ ".." := by
  unfold readlinkAt at h
  cases hp : fs p with
  | none => rw [hp] at h; simp at h
  | some m =>
      rw [hp] at h
      simp only at h
      cases hk : m.kind with
      | symlink t =>
          rw [hk] at h
          simp at h
          subst h
          exact hfs p m _ hp hk
      | dir => rw [hk] at h; simp at h
      | regular => rw [hk] at h; simp at h

/-- Helper for C1: on a filesystem whose symlink targets are free of
dot-dot, every path the symlink loop inspects, and the path it returns,
stays under the process root, provided it starts strictly below it. -/
theorem symLoop_confined (fs : Fs) (root : HPath)
    (hfs : NoDotDotTargets fs) :
    ∀ fuel cur isDir cnt,
      (∃ u, cur = root ++ u ∧ u ≠ []) →
      ((∀ q ∈ (symLoop fs root fuel cur isDir cnt).snd, ∃ t, q = root ++ t) ∧
        (∀ res log, symLoop fs root fuel cur isDir cnt = (.ok res, log) →
          ∃ t, res.cur = root ++ t)) := by
  intro fuel
  induction fuel with
  | zero =>
      intro cur isDir cnt hcur
      constructor
      · intro q hq
        simp [symLoop] at hq
      · intro res log h
        simp [symLoop] at h
  | succ fuel ih =>
      intro cur isDir cnt hcur
      rcases hcur with ⟨u, hcu, hune⟩
      have hcurpre : ∃ t, cur = root ++ t := ⟨u, hcu⟩
      by_cases hg : SymlinkMax ≤ cnt
      · constructor
        · intro q hq
          simp [symLoop, hg] at hq
        · intro res log h
          simp [symLoop, hg] at h
      · cases hrl : readlinkAt fs cur with
        | none =>
            constructor
            · intro q hq
              simp [symLoop, hg, hrl] at hq
              exact hq ▸ hcurpre
            · intro res log h
              simp [symLoop, hg, hrl] at h
        | some link =>
            have hlink := readlinkAt_target hfs hrl
            have hnextpre : ∃ t,
                (if isAbsGo link then joinClean root (goSplitSlash link)
                  else joinClean (dirOf cur) (goSplitSlash link)) =
                  root ++ t := by
              by_cases habs : isAbsGo link
              · rw [if_pos habs]
                exact joinClean_keeps_root root _ root hlink ⟨[], by simp⟩
              · rw [if_neg habs]
                apply joinClean_keeps_root root _ _ hlink
                refine ⟨u.dropLast, ?_⟩
                rw [hcu]
                exact dropLast_append_left root u hune
            by_cases hroot :
                (if isAbsGo link then joinClean root (goSplitSlash link)
                  else joinClean (dirOf cur) (goSplitSlash link)) = root
            · constructor
              · intro q hq
                simp only [symLoop, if_neg hg, hrl, if_pos hroot] at hq
                simp at hq
                exact hq ▸ hcurpre
              · intro res log h
                simp only [symLoop, if_neg hg, hrl, if_pos hroot] at h
                simp [Prod.mk.injEq] at h
                rcases h with ⟨hres, -⟩
                rw [← hres]
                exact ⟨[], by simp [hroot]⟩
            · cases hsym : isSymlinkAt fs
                  (if isAbsGo link then joinClean root (goSplitSlash link)
                    else joinClean (dirOf cur) (goSplitSlash link)) with
              | none =>
                  constructor
                  · intro q hq
                    simp only [symLoop, if_neg hg, hrl, if_neg hroot,
                      hsym] at hq
                    simp at hq
                    rcases hq with hq | hq
                    · exact hq ▸ hcurpre
                    · exact hq ▸ hnextpre
                  · intro res log h
                    simp only [symLoop, if_neg hg, hrl, if_neg hroot,
                      hsym] at h
                    simp at h
              | some sd =>
                  rcases sd with ⟨sym, dir2⟩
                  by_cases hs : sym = false
                  · constructor
                    · intro q hq
                      simp only [symLoop, if_neg hg, hrl, if_neg hroot,
                        hsym, if_pos hs] at hq
                      simp at hq
                      rcases hq with hq | hq
                      · exact hq ▸ hcurpre
                      · exact hq ▸ hnextpre
                    · intro res log h
                      simp only [symLoop, if_neg hg, hrl, if_neg hroot,
                        hsym, if_pos hs] at h
                      simp [Prod.mk.injEq] at h
                      rcases h with ⟨hres, -⟩
                      rw [← hres]
                      exact hnextpre
                  · have hnextne : ∃ u2,
                        (if isAbsGo link then joinClean root (goSplitSlash link)
                          else joinClean (dirOf cur) (goSplitSlash link)) =
                          root ++ u2 ∧ u2 ≠ [] := by
                      rcases hnextpre with ⟨t, ht⟩
                      refine ⟨t, ht, ?_⟩
                      intro hnil
                      rw [hnil] at ht
                      simp at ht
                      exact hroot ht
                    have hrec := ih _ dir2 (cnt + 1) hnextne
                    constructor
                    · intro q hq
                      simp only [symLoop, if_neg hg, hrl, if_neg hroot,
                        hsym, if_neg hs] at hq
                      simp at hq
                      rcases hq with hq | hq | hq
                      · exact hq ▸ hcurpre
                      · exact hq ▸ hnextpre
                      · exact hrec.1 q hq
                    · intro res log h
                      simp only [symLoop, if_neg hg, hrl, if_neg hroot,
                        hsym, if_neg hs] at h
                      simp only [Prod.mk.injEq] at h
                      rcases h with ⟨hfst, -⟩
                      rcases hrx : symLoop fs root fuel
                          (if isAbsGo link then
                            joinClean root (goSplitSlash link)
                          else joinClean (dirOf cur) (goSplitSlash link))
                          dir2 (cnt + 1) with ⟨r2, l2⟩
                      rw [hrx] at hfst
                      simp only at hfst
                      exact hrec.2 res l2 (by rw [hrx, hfst])

/-- Helper for C1: every host path the component walk inspects stays
under the process root, by induction over the components; the dot-dot
branch is confined by the clamp, the plain branches extend the current
path, and symlink rewrites are confined by symLoop_confined. -/
theorem walk_confined (fs : Fs) (pr : Proc) (mode : Nat)
    (hfs : NoDotDotTargets fs) (h0 : pr.root ≠ [])
    (h1 : ∀ c ∈ pr.root, c ≠ "") :
    ∀ comps cur cnt, (∃ t, cur = pr.root ++ t) →
      ∀ q ∈ (walk fs pr mode comps cur cnt).snd, ∃ t, q = pr.root ++ t := by
  intro comps
  induction comps with
  | nil =>
      intro cur cnt hcur q hq
      simp [walk] at hq
  | cons c rest ih =>
      intro cur cnt hcur q hq
      by_cases hce : c = ""
      · rw [walk, if_pos hce] at hq
        exact ih cur cnt hcur q hq
      · rw [walk, if_neg hce] at hq
        simp only at hq
        set y := (if c = ".." then
            (if (pathChars pr.root).isPrefixOf (pathChars (dirOf cur))
              then dirOf cur else pr.root)
          else if c = "." then cur else cur ++ [c]) with hy
        have hypre : ∃ t, y = pr.root ++ t := by
          rw [hy]
          by_cases hdd : c = ".."
          · rw [if_pos hdd]
            rcases hcur with ⟨t, hct⟩
            rcases ht : t with _ | ⟨t0, ts⟩
            · rw [ht] at hct
              simp at hct
              rw [hct]
              rw [root_not_strPrefix_dirOf pr.root h0 h1]
              simp
            · have htne : t ≠ [] := by rw [ht]; simp
              have hdir : dirOf cur = pr.root ++ t.dropLast := by
                rw [hct]
                exact dropLast_append_left pr.root t htne
              by_cases hIf :
                  (pathChars pr.root).isPrefixOf (pathChars (dirOf cur)) = true
              · rw [if_pos hIf]
                exact ⟨t.dropLast, hdir⟩
              · simp only [hIf]
                simp
          · rw [if_neg hdd]
            by_cases hdi : c = "."
            · rw [if_pos hdi]
              exact hcur
            · rw [if_neg hdi]
              rcases hcur with ⟨t, hct⟩
              exact ⟨t ++ [c], by rw [hct, List.append_assoc]⟩
        cases hsymq : isSymlinkAt fs y with
        | none =>
            rw [hsymq] at hq
            simp at hq
            exact hq ▸ hypre
        | some sd =>
            rcases sd with ⟨sym, dir0⟩
            rw [hsymq] at hq
            simp only at hq
            by_cases hnd : (decide (rest = []) = false ∧ sym = false ∧
                dir0 = false)
            · rw [if_pos hnd] at hq
              simp at hq
              exact hq ▸ hypre
            · rw [if_neg hnd] at hq
              by_cases hstep : (sym = true ∧ y ≠ pr.root)
              · rw [if_pos hstep] at hq
                have hyne : ∃ u, y = pr.root ++ u ∧ u ≠ [] := by
                  rcases hypre with ⟨t, ht⟩
                  refine ⟨t, ht, ?_⟩
                  intro hnil
                  rw [hnil] at ht
                  simp at ht
                  exact hstep.2 ht
                have hconf := symLoop_confined fs pr.root hfs
                  (SymlinkMax + 1 - cnt) y dir0 cnt hyne
                rcases hSL : symLoop fs pr.root (SymlinkMax + 1 - cnt) y
                    dir0 cnt with ⟨slr, sllog⟩
                rw [hSL] at hq hconf
                cases slr with
                | error e =>
                    simp only at hq
                    simp at hq
                    rcases hq with hq | hq
                    · exact hq ▸ hypre
                    · exact hconf.1 q hq
                | ok res =>
                    simp only at hq
                    have hrespre : ∃ t, res.cur = pr.root ++ t :=
                      hconf.2 res sllog rfl
                    by_cases hnd2 : (decide (rest = []) = false ∧
                        res.isDir = false)
                    · rw [if_pos hnd2] at hq
                      simp at hq
                      rcases hq with hq | hq
                      · exact hq ▸ hypre
                      · exact hconf.1 q hq
                    · rw [if_neg hnd2] at hq
                      simp only at hq
                      cases hcp : checkPermPath fs pr res.cur
                          (if decide (rest = []) = true then mode
                            else X_OK) with
                      | none =>
                          rw [hcp] at hq
                          simp at hq
                          rcases hq with hq | hq | hq
                          · exact hq ▸ hypre
                          · exact hconf.1 q hq
                          · exact hq ▸ hrespre
                      | some b =>
                          rw [hcp] at hq
                          cases b with
                          | false =>
                              simp at hq
                              rcases hq with hq | hq | hq
                              · exact hq ▸ hypre
                              · exact hconf.1 q hq
                              · exact hq ▸ hrespre
                          | true =>
                              simp at hq
                              rcases hq with hq | hq | hq | hq
                              · exact hq ▸ hypre
                              · exact hconf.1 q hq
                              · exact hq ▸ hrespre
                              · exact ih res.cur res.linkCnt hrespre q hq
              · rw [if_neg hstep] at hq
                simp only at hq
                cases hcp : checkPermPath fs pr y
                    (if decide (rest = []) = true then mode else X_OK) with
                | none =>
                    rw [hcp] at hq
                    simp at hq
                    exact hq ▸ hypre
                | some b =>
                    rw [hcp] at hq
                    cases b with
                    | false =>
                        simp at hq
                        exact hq ▸ hypre
                    | true =>
                        simp at hq
                        rcases hq with hq | hq
                        · exact hq ▸ hypre
                        · exact ih y cnt hypre q hq

/-- The one-symlink witness filesystem has no dot-dot target. -/
theorem fsOneLink_noDD : NoDotDotTargets fsOneLink := by
  intro p m t hp hk
  unfold fsOneLink at hp
  split_ifs at hp
  · rw [Option.some.injEq] at hp
    subst hp
    simp at hk
  · rw [Option.some.injEq] at hp
    subst hp
    simp only [FKind.symlink.injEq] at hk
    subst hk
    decide
  · rw [Option.some.injEq] at hp
    subst hp
    simp at hk

/-- C1 amended: for every absolute input path on a filesystem whose
symlink targets contain no dot-dot component, every intermediate host
path pathAccess visits has the process root as a prefix: the dot-dot
clamp and the symlink rebase never leave the root.  The amendment adds
the no-dot-dot condition on symlink targets (see the counterexample: a
target with dot-dot escapes through the lexical clean of filepath.Join)
and restricts to absolute paths, whose traversal starts at the root
rather than at /proc/[pid]/cwd. -/
theorem pathAccess_root_confined (fs : Fs) (pr : Proc) (path : String)
    (mode : Nat) (habs : isAbsGo path = true) (h0 : pr.root ≠ [])
    (h1 : ∀ c ∈ pr.root, c ≠ "") (hfs : NoDotDotTargets fs) :
    ∀ q ∈ (pathAccess fs pr path mode).snd, ∃ t, q = pr.root ++ t := by
  intro q hq
  by_cases hne : path = ""
  · rw [hne] at hq
    simp [pathAccess] at hq
  · by_cases hlen : PathMax < path.length + 1
    · simp [pathAccess, hne, hlen] at hq
    · simp only [pathAccess, if_neg hne, if_neg hlen, habs, if_true] at hq
      exact walk_confined fs pr mode hfs h0 h1 (goSplitSlash path) pr.root 0
        ⟨[], by simp⟩ q hq

/-- C1 counterexample: with the process root /proc/42/root and a
symlink a below it whose target is /.., pathAccess("/a") visits the host
path /proc/42, which does not have the process root as a prefix: the
absolute-target rebase filepath.Join(root, "/..") cleans the dot-dot
lexically and climbs out of the root. -/
theorem pathAccess_escape_cex :
    (¬ ∃ t, (["proc", "42"] : HPath) = rootEx ++ t) ∧
    (["proc", "42"] : HPath) ∈ (pathAccess fsEscape prEx "/a" R_OK).snd := by
  constructor
  · rintro ⟨t, ht⟩
    have hlen := congrArg List.length ht
    simp [rootEx] at hlen
  · decide

/-- C1 witness: on the well-behaved one-symlink filesystem the visited
path of the symlink component is confined under the root. -/
theorem pathAccess_root_confined_witness :
    ∃ t, rootEx ++ ["a"] = prEx.root ++ t :=
  pathAccess_root_confined fsOneLink prEx "/a" R_OK rfl (by decide)
    (by decide) fsOneLink_noDD (rootEx ++ ["a"]) (by decide)

end SysboxFS

namespace SysboxFS

/-- C5: through the common passthrough handler, when writer and reader
share the container init namespaces, a Write of x followed by a Read at
offset 0 yields exactly trim(x) plus one newline, both when the handler
caches (the cache hit returns the stored trimmed payload) and when it
does not (the host round trip re-trims); and any Read with offset > 0
returns EOF with no data. -/
theorem common_write_read_roundtrip (env : CommonEnv) (payload : String)
    (cache : Option String) (host : String) (offset : Nat)
    (hm : env.nsMatch = true) (hf : env.fetchOk = true)
    (hp : env.pushOk = true) :
    ((commonRead env true 0
        (commonWrite env true payload cache host).2.1
        (commonWrite env true payload cache host).2.2.1).fst =
      .ok (goTrimSpace payload ++ "\n")) ∧
    (0 < offset →
      (commonRead env true offset cache host).fst = .error .eof) := by
  constructor
  · by_cases hc : env.cacheable = true
    · simp [commonWrite, commonRead, hc, hm, hp, hf]
    · simp [commonWrite, commonRead, hc, hm, hp, hf, goTrimSpace_idem]
  · intro ho
    simp [commonRead, ho]

/-- C7 amended: every common-handler operation invoked without a
container (Lookup, Open, Read at offset 0, Write, ReadDirAll, Setattr)
fails with the container-not-found error, performs no cross-namespace
request and no cache or host mutation, and the FUSE caller observes
EACCES for such a read; the amendment restricts the Read case to offset
0, because the code checks the offset first. -/
theorem common_nil_container (env : CommonEnv) (cache : Option String)
    (host payload : String) :
    commonLookup env false = (.error .containerNotFound, []) ∧
    commonOpen env false = (.error .containerNotFound, []) ∧
    commonRead env false 0 cache host =
      (.error .containerNotFound, cache, []) ∧
    commonWrite env false payload cache host =
      (.error .containerNotFound, cache, host, []) ∧
    commonReadDirAll env false = (.error .containerNotFound, []) ∧
    commonSetattr env false = (.error .containerNotFound, []) ∧
    fuseReadErrno .containerNotFound = .EACCES := by
  refine ⟨rfl, rfl, rfl, rfl, rfl, rfl, rfl⟩

/-- C7 counterexample: a Read with a nil container at offset 1 returns
io.EOF, not the container-not-found failure the claim asserts for every
operation with a nil container. -/
theorem common_nil_container_cex :
    (commonRead envOk false 1 none "x").fst = .error .eof ∧
    GoErr.eof ≠ GoErr.containerNotFound := by
  constructor
  · rfl
  · decide


/-- C5 witness: writing " 7 " and reading it back through a healthy
environment returns 7 plus a newline, with and without caching, and a
read at offset 1 returns EOF. -/
theorem common_write_read_roundtrip_witness :
    ((commonRead envOk true 0
        (commonWrite envOk true " 7 " none "x").2.1
        (commonWrite envOk true " 7 " none "x").2.2.1).fst =
      .ok (goTrimSpace " 7 " ++ "\n")) ∧
    ((commonRead envNoCache true 0
        (commonWrite envNoCache true " 7 " none "x").2.1
        (commonWrite envNoCache true " 7 " none "x").2.2.1).fst =
      .ok (goTrimSpace " 7 " ++ "\n")) ∧
    ((commonRead envOk true 1 none "x").fst = .error .eof) :=
  ⟨(common_write_read_roundtrip envOk " 7 " none "x" 1 rfl rfl rfl).1,
    (common_write_read_roundtrip envNoCache " 7 " none "x" 1 rfl rfl rfl).1,
    (common_write_read_roundtrip envOk " 7 " none "x" 1 rfl rfl rfl).2
      (by decide)⟩

end SysboxFS
